import Mathlib

/-!
Verification of the skill co-occurrence network builder
(`skillNetworkCreation.py`).

The embedding below models the dataframe as a list of `Record`s plus a
flag saying whether the optional `Region` column is present.  Pandas and
networkx behaviours that the source relies on are made explicit:

* `Series.unique` keeps the first occurrence of each value (`uniqueFirst`);
* `DataFrame.groupby` iterates groups in ascending key order, each group
  keeping the original row order (`groupKeys`, `groupOf`);
* Python's `sorted` is a stable sort (`sortOrd`, an insertion sort that
  keeps the original relative order of elements the key considers equal);
* a networkx adjacency view lists neighbours in edge-insertion order
  (`adj` reads the edge list in insertion order);
* Python dicts preserve insertion order (`bump` on an association list).
-/

namespace SkillNet

/-- One row of the input table: required columns `Element ID` and
`Element Name`, optional `Region` (a missing cell is `none`). -/
structure Record where
  element_id : String
  element_name : String
  region : Option String
deriving DecidableEq, Repr

/-- Deduplication pass keeping first occurrences, with an accumulator of
values already seen. -/
def dedupKeep {α : Type} [DecidableEq α] (seen : List α) : List α → List α
  | [] => []
  | x :: xs => if x ∈ seen then dedupKeep seen xs else x :: dedupKeep (x :: seen) xs

/-- `pandas.Series.unique`: distinct values in order of first appearance. -/
def uniqueFirst {α : Type} [DecidableEq α] (l : List α) : List α :=
  dedupKeep [] l

/-- Insert `x` into `l` placing it before the first element `y` with
`p x y = true`; used to model Python's stable `sorted`. -/
def insertOrd {α : Type} (p : α → α → Bool) (x : α) : List α → List α
  | [] => [x]
  | y :: ys => if p x y then x :: y :: ys else y :: insertOrd p x ys

/-- Stable sort (insertion sort): an element coming earlier in the input
stays before any later element that compares equal to it. -/
def sortOrd {α : Type} (p : α → α → Bool) (l : List α) : List α :=
  l.foldr (insertOrd p) []

/-- Lexicographic non-strict comparison of character lists, by Unicode
code point — the order Python uses on strings. -/
def charListLe : List Char → List Char → Bool
  | [], _ => true
  | _ :: _, [] => false
  | c :: cs, d :: ds => if c < d then true else if d < c then false else charListLe cs ds

/-- Lexicographic strict comparison of character lists. -/
def charListLt : List Char → List Char → Bool
  | [], [] => false
  | [], _ :: _ => true
  | _ :: _, [] => false
  | c :: cs, d :: ds => if c < d then true else if d < c then false else charListLt cs ds

/-- Python's `<=` on strings: lexicographic by code point. -/
def strLe (a b : String) : Bool :=
  charListLe a.data b.data

/-- Python's `<` on strings: lexicographic by code point. -/
def strLt (a b : String) : Bool :=
  charListLt a.data b.data

/-- `tuple(sorted((a, b)))` from line 59 of the source: the unordered
pair canonicalised by the lexicographic order on skill identifiers. -/
def canonPair (a b : String) : String × String :=
  if strLe a b then (a, b) else (b, a)

/-- The double loop `for i ... for j in range(i+1, ...)` of lines 57-59:
all canonicalised pairs taken from distinct positions of `skills`. -/
def pairsOf : List String → List (String × String)
  | [] => []
  | x :: xs => xs.map (fun y => canonPair x y) ++ pairsOf xs

/-- `co_occurrence[pair] += 1` on a `defaultdict(int)`: increment the
entry of `p`, appending a fresh entry with count 1 when `p` is new
(Python dicts keep insertion order). -/
def bump (m : List ((String × String) × Nat)) (p : String × String) :
    List ((String × String) × Nat) :=
  if m.any (fun e => decide (e.1 = p)) then
    m.map (fun e => if e.1 = p then (e.1, e.2 + 1) else e)
  else m ++ [(p, 1)]

/-- The distinct `Element ID` keys in the order `df.groupby` iterates
them: ascending key order. -/
def groupKeys (rows : List Record) : List String :=
  sortOrd strLe (uniqueFirst (rows.map (·.element_id)))

/-- The rows of one `groupby` group, in original row order. -/
def groupOf (rows : List Record) (k : String) : List Record :=
  rows.filter (fun r => decide (r.element_id = k))

/-- The sequence of groups produced by `df.groupby('Element ID')`. -/
def groupedRows (rows : List Record) : List (List Record) :=
  (groupKeys rows).map (groupOf rows)

/-- `group['Element Name'].unique()` (line 56): distinct skill names of a
group, first occurrences first. -/
def groupSkills (group : List Record) : List String :=
  uniqueFirst (group.map (·.element_name))

/-- The aggregation loop of lines 51-60: fold every group's pair list
into the co-occurrence dictionary. -/
def co_occurrence (groups : List (List Record)) : List ((String × String) × Nat) :=
  groups.foldl (fun m g => (pairsOf (groupSkills g)).foldl bump m) []

/-- A networkx `Graph` as the source uses it: node list with the
`region` attribute, edge list with the `weight` attribute, both in
insertion order. -/
structure SkillGraph where
  nodes : List (String × Option String)
  edges : List ((String × String) × Nat)
deriving DecidableEq, Repr

/-- `G.add_node(skill, region=...)`: update the attribute when the node
exists, otherwise append it. -/
def add_node (g : SkillGraph) (s : String) (reg : Option String) : SkillGraph :=
  if s ∈ g.nodes.map (·.1) then
    { g with nodes := g.nodes.map (fun n => if n.1 = s then (s, reg) else n) }
  else { g with nodes := g.nodes ++ [(s, reg)] }

/-- `G.add_edge(a, b, weight=w)`: silently add missing endpoints as
nodes, then update the weight of an existing `{a, b}` edge or append a
new one. -/
def add_edge (g : SkillGraph) (a b : String) (w : Nat) : SkillGraph :=
  let ns1 := if a ∈ g.nodes.map (·.1) then g.nodes else g.nodes ++ [(a, none)]
  let ns2 := if b ∈ ns1.map (·.1) then ns1 else ns1 ++ [(b, none)]
  let es :=
    if g.edges.any (fun e => decide (e.1 = (a, b) ∨ e.1 = (b, a))) then
      g.edges.map (fun e => if e.1 = (a, b) ∨ e.1 = (b, a) then (e.1, w) else e)
    else g.edges ++ [((a, b), w)]
  { nodes := ns2, edges := es }

/-- Line 65-66: the node's `region` attribute, `regions[0]` of
`df[df['Element Name'] == skill]['Region'].unique()` when the `Region`
column exists and the filtered series is non-empty, else `None`. -/
def node_region (hasRegion : Bool) (rows : List Record) (skill : String) :
    Option String :=
  if hasRegion then
    match uniqueFirst ((rows.filter (fun r => decide (r.element_name = skill))).map (·.region)) with
    | [] => none
    | r :: _ => r
  else none

/-- `create_weighted_skill_graph` (lines 38-72): aggregate co-occurrence
counts per `Element ID` group, add one node per distinct skill with its
region attribute, then add one weighted edge per dictionary entry. -/
def create_weighted_skill_graph (hasRegion : Bool) (rows : List Record) : SkillGraph :=
  let co := co_occurrence (groupedRows rows)
  let unique_skills := uniqueFirst (rows.map (·.element_name))
  let g1 := unique_skills.foldl
    (fun g skill => add_node g skill (node_region hasRegion rows skill))
    { nodes := [], edges := [] }
  co.foldl (fun g e => add_edge g e.1.1 e.1.2 e.2) g1

/-- The adjacency view `G[s]`: neighbours with the edge weight, in the
order the incident edges were inserted. -/
def adj (g : SkillGraph) (s : String) : List (String × Nat) :=
  g.edges.filterMap (fun e =>
    if e.1.1 = s then some (e.1.2, e.2)
    else if e.1.2 = s then some (e.1.1, e.2) else none)

/-- Comparison used by the neighbour sort: `x` goes before `y` exactly
when `y`'s weight does not exceed `x`'s. -/
def weightDescP (x y : String × Nat) : Bool :=
  decide (y.2 ≤ x.2)

/-- Line 136: `sorted(neighbors.items(), key=weight, reverse=True)` —
a stable descending sort on the weight. -/
def sorted_neighbors_of (g : SkillGraph) (s : String) : List (String × Nat) :=
  sortOrd weightDescP (adj g s)

/-- Line 137: `sorted_neighbors[:10]`. -/
def top_neighbors_of (g : SkillGraph) (s : String) : List (String × Nat) :=
  (sorted_neighbors_of g s).take 10

/-- One line printed by `user_interface`. -/
inductive UIOutput
  | notFoundMsg
  | header (s : String)
  | related (neighbor : String) (weight : Nat)
  | placeholder
deriving DecidableEq, Repr

/-- `user_interface` (lines 123-144) applied to an already-read skill
id: the sequence of lines it prints.  An unknown id prints the
not-found message and returns; a known id prints a header, the top ten
related skills, and the placeholder line. -/
def user_interface (g : SkillGraph) (skill_id : String) : List UIOutput :=
  if skill_id ∈ g.nodes.map (·.1) then
    UIOutput.header skill_id ::
      (top_neighbors_of g skill_id).map (fun x => UIOutput.related x.1 x.2) ++
      [UIOutput.placeholder]
  else [UIOutput.notFoundMsg]

/-- The columns of the dataframe handed to the core: the two required
ones plus `Region` when present (`parse_skill_data` validates exactly
these; no other column ever exists). -/
def columnNames (hasRegion : Bool) : List String :=
  if hasRegion then ["Element ID", "Element Name", "Region"]
  else ["Element ID", "Element Name"]

/-- The cell of row `r` in column `c`, for the columns that exist. -/
def cellValue (r : Record) (c : String) : Option String :=
  if c = "Element ID" then some r.element_id
  else if c = "Element Name" then some r.element_name
  else if c = "Region" then r.region
  else none

/-- `df.groupby(keyCol)[valCol].nunique().to_dict()`: fails with a
`KeyError` naming the missing column when either column is absent from
the dataframe; otherwise maps each key (ascending, missing keys
dropped) to the number of distinct non-missing values in its group. -/
def groupbyNunique (hasRegion : Bool) (rows : List Record) (keyCol valCol : String) :
    Except String (List (String × Nat)) :=
  if keyCol ∈ columnNames hasRegion then
    if valCol ∈ columnNames hasRegion then
      Except.ok ((sortOrd strLe
          (uniqueFirst (rows.filterMap (fun r => cellValue r keyCol)))).map
        (fun k => (k, (uniqueFirst ((rows.filter
            (fun r => decide (cellValue r keyCol = some k))).filterMap
            (fun r => cellValue r valCol))).length)))
    else Except.error valCol
  else Except.error keyCol

/-- The value of `get_regional_insights`'s dictionary. -/
inductive Insights
  | jobTypesByRegion (counts : List (String × Nat))
  | noRegionalData (msg : String)
deriving DecidableEq, Repr

/-- `get_regional_insights` (lines 77-93): when a `Region` column is
present, `df.groupby('Region')['JobType'].nunique()`; otherwise a
fallback message. -/
def get_regional_insights (hasRegion : Bool) (rows : List Record) :
    Except String Insights :=
  if hasRegion then
    (groupbyNunique hasRegion rows "Region" "JobType").map Insights.jobTypesByRegion
  else Except.ok (Insights.noRegionalData "No regional data available.")

/-- Number of occurrences of `a` in `l`. -/
def countEq {α : Type} [DecidableEq α] (l : List α) (a : α) : Nat :=
  (l.filter (fun x => decide (x = a))).length

/-- Count stored for pair `p` in the co-occurrence dictionary (0 when
absent). -/
def lookupPC (m : List ((String × String) × Nat)) (p : String × String) : Nat :=
  match m.find? (fun e => decide (e.1 = p)) with
  | some e => e.2
  | none => 0

/-- The `region` attribute of node `s` in graph `g`. -/
def regionAttrOf (g : SkillGraph) (s : String) : Option String :=
  (g.nodes.find? (fun n => decide (n.1 = s))).bind (fun n => n.2)

/-- Weight of the undirected edge `{a, b}` of `g` (`None` when no such
edge exists). -/
def edgeWeight (g : SkillGraph) (a b : String) : Option Nat :=
  (g.edges.find? (fun e => decide (e.1 = (a, b) ∨ e.1 = (b, a)))).map (fun e => e.2)

/-- Spec-side count: the number of distinct `element_id` groups in which
both skills `a` and `b` appear. -/
def distinctGroupsContainingBoth (rows : List Record) (a b : String) : Nat :=
  ((uniqueFirst (rows.map (·.element_id))).filter (fun k =>
    rows.any (fun r => decide (r.element_id = k ∧ r.element_name = a)) &&
    rows.any (fun r => decide (r.element_id = k ∧ r.element_name = b)))).length

/-- Spec-side ordering predicate of claim C2: strictly descending weight
between consecutive entries, except that an equal-weight pair must be in
ascending lexicographic order of the identifier. -/
def orderedDescLexTiesB : List (String × Nat) → Bool
  | [] => true
  | [_] => true
  | x :: y :: t =>
    (decide (y.2 < x.2) || (decide (x.2 = y.2) && strLt x.1 y.1)) &&
      orderedDescLexTiesB (y :: t)

/-- Consecutive weights are non-increasing. -/
def weightsDescB : List (String × Nat) → Bool
  | [] => true
  | [_] => true
  | x :: y :: t => decide (y.2 ≤ x.2) && weightsDescB (y :: t)

/-- For every weight occurring among the neighbours of `s`, the sorted
neighbour list restricted to that weight equals the adjacency list
restricted to that weight: equal-weight neighbours keep their
edge-insertion order. -/
def stableTiesB (g : SkillGraph) (s : String) : Bool :=
  ((adj g s).map (·.2)).all (fun w =>
    decide ((sorted_neighbors_of g s).filter (fun x => decide (x.2 = w)) =
      (adj g s).filter (fun x => decide (x.2 = w))))

/-- Modelled from the spec: `region` resolution as claim C5 states it —
the first non-empty region value observed for the skill in input
order. -/
def firstNonEmptyRegionSpec (rows : List Record) (s : String) : Option String :=
  ((rows.filter (fun r => decide (r.element_name = s))).filterMap (fun r => r.region)).head?

/-- The running example of the spec: job 1 lists skills A, B, C and job 2
lists A, B. -/
def rowsExample : List Record :=
  [⟨"1", "A", none⟩, ⟨"1", "B", none⟩, ⟨"1", "C", none⟩, ⟨"2", "A", none⟩, ⟨"2", "B", none⟩]

/-- Input whose skill S has two neighbours of equal weight, with the
B edge inserted before the A edge. -/
def rowsTie : List Record :=
  [⟨"1", "S", none⟩, ⟨"1", "B", none⟩, ⟨"2", "S", none⟩, ⟨"2", "A", none⟩]

/-- Input whose skill A first appears with a missing region and later
with region R. -/
def rowsRegion : List Record :=
  [⟨"1", "A", none⟩, ⟨"2", "A", some "R"⟩]

/-- The graph built from the running example. -/
def graphExample : SkillGraph :=
  create_weighted_skill_graph false rowsExample

/-- The graph built from the equal-weight-tie example. -/
def graphTie : SkillGraph :=
  create_weighted_skill_graph false rowsTie

/-- Two one-row job-type groups. -/
def groupsFwd : List (List Record) :=
  [[⟨"1", "S", none⟩, ⟨"1", "T", none⟩], [⟨"2", "S", none⟩]]

/-- The same two groups in the opposite order. -/
def groupsRev : List (List Record) :=
  [[⟨"2", "S", none⟩], [⟨"1", "S", none⟩, ⟨"1", "T", none⟩]]

theorem mem_dedupKeep {α : Type} [DecidableEq α] (seen : List α) (l : List α) (a : α) :
    a ∈ dedupKeep seen l ↔ a ∈ l ∧ a ∉ seen := by
  induction l generalizing seen with
  | nil => simp [dedupKeep]
  | cons x xs ih =>
    by_cases hx : x ∈ seen
    · simp only [dedupKeep, if_pos hx, ih, List.mem_cons]
      constructor
      · rintro ⟨h1, h2⟩
        exact ⟨Or.inr h1, h2⟩
      · rintro ⟨h1 | h1, h2⟩
        · exact absurd (h1 ▸ hx) h2
        · exact ⟨h1, h2⟩
    · simp only [dedupKeep, if_neg hx, List.mem_cons, ih]
      constructor
      · rintro (rfl | ⟨h1, h2⟩)
        · exact ⟨Or.inl rfl, hx⟩
        · exact ⟨Or.inr h1, fun hs => h2 (Or.inr hs)⟩
      · rintro ⟨h1 | h1, h2⟩
        · exact Or.inl h1
        · by_cases hax : a = x
          · exact Or.inl hax
          · exact Or.inr ⟨h1, fun hs => hs.elim hax h2⟩

theorem nodup_dedupKeep {α : Type} [DecidableEq α] (seen : List α) (l : List α) :
    (dedupKeep seen l).Nodup := by
  induction l generalizing seen with
  | nil => exact List.nodup_nil
  | cons x xs ih =>
    by_cases hx : x ∈ seen
    · simpa only [dedupKeep, if_pos hx] using ih seen
    · simp only [dedupKeep, if_neg hx]
      refine List.nodup_cons.mpr ⟨?_, ih (x :: seen)⟩
      intro hmem
      exact ((mem_dedupKeep (x :: seen) xs x).mp hmem).2 (List.mem_cons_self x seen)

theorem mem_uniqueFirst {α : Type} [DecidableEq α] (l : List α) (a : α) :
    a ∈ uniqueFirst l ↔ a ∈ l := by
  rw [uniqueFirst, mem_dedupKeep]
  simp

theorem nodup_uniqueFirst {α : Type} [DecidableEq α] (l : List α) :
    (uniqueFirst l).Nodup :=
  nodup_dedupKeep [] l

theorem uniqueFirst_cons {α : Type} [DecidableEq α] (x : α) (xs : List α) :
    uniqueFirst (x :: xs) = x :: dedupKeep [x] xs := by
  simp [uniqueFirst, dedupKeep]

theorem insertOrd_perm {α : Type} (p : α → α → Bool) (x : α) (l : List α) :
    (insertOrd p x l).Perm (x :: l) := by
  induction l with
  | nil => exact List.Perm.refl _
  | cons y ys ih =>
    by_cases h : p x y
    · rw [insertOrd, if_pos h]
    · rw [insertOrd, if_neg h]
      exact (ih.cons y).trans (List.Perm.swap x y ys)

theorem sortOrd_perm {α : Type} (p : α → α → Bool) (l : List α) :
    (sortOrd p l).Perm l := by
  induction l with
  | nil => exact List.Perm.refl _
  | cons x xs ih =>
    have hstep : sortOrd p (x :: xs) = insertOrd p x (sortOrd p xs) := rfl
    rw [hstep]
    exact (insertOrd_perm p x (sortOrd p xs)).trans (ih.cons x)

theorem insertOrd_desc_pairwise (x : String × Nat) (l : List (String × Nat))
    (h : l.Pairwise (fun a b => b.2 ≤ a.2)) :
    (insertOrd weightDescP x l).Pairwise (fun a b => b.2 ≤ a.2) := by
  induction l with
  | nil => simp [insertOrd]
  | cons y ys ih =>
    rw [List.pairwise_cons] at h
    by_cases hxy : y.2 ≤ x.2
    · rw [insertOrd, if_pos (by simpa [weightDescP] using hxy)]
      refine List.pairwise_cons.mpr ⟨?_, List.pairwise_cons.mpr h⟩
      intro z hz
      rcases List.mem_cons.mp hz with rfl | hz
      · exact hxy
      · exact le_trans (h.1 z hz) hxy
    · rw [insertOrd, if_neg (by simpa [weightDescP] using hxy)]
      refine List.pairwise_cons.mpr ⟨?_, ih h.2⟩
      intro z hz
      rcases (insertOrd_perm weightDescP x ys).mem_iff.mp hz with hz2
      rcases List.mem_cons.mp hz2 with rfl | hz3
      · exact le_of_not_le hxy
      · exact h.1 z hz3

theorem sortOrd_desc_pairwise (l : List (String × Nat)) :
    (sortOrd weightDescP l).Pairwise (fun a b => b.2 ≤ a.2) := by
  induction l with
  | nil => simp [sortOrd]
  | cons x xs ih =>
    have hstep : sortOrd weightDescP (x :: xs) = insertOrd weightDescP x (sortOrd weightDescP xs) := rfl
    rw [hstep]
    exact insertOrd_desc_pairwise x _ ih

theorem weightsDescB_of_pairwise :
    ∀ l : List (String × Nat), l.Pairwise (fun a b => b.2 ≤ a.2) → weightsDescB l = true
  | [], _ => rfl
  | [_], _ => rfl
  | x :: y :: t, h => by
    rw [List.pairwise_cons] at h
    rw [weightsDescB]
    refine (Bool.and_eq_true _ _).mpr ⟨decide_eq_true ?_, ?_⟩
    · exact h.1 y (List.mem_cons_self y t)
    · exact weightsDescB_of_pairwise (y :: t) h.2

theorem filter_insertOrd_desc (x : String × Nat) (l : List (String × Nat)) (w : Nat) :
    (insertOrd weightDescP x l).filter (fun a => decide (a.2 = w)) =
      (if x.2 = w then [x] else []) ++ l.filter (fun a => decide (a.2 = w)) := by
  induction l with
  | nil =>
    by_cases hx : x.2 = w <;> simp [insertOrd, hx]
  | cons y ys ih =>
    by_cases hxy : y.2 ≤ x.2
    · rw [insertOrd, if_pos (by simpa [weightDescP] using hxy)]
      by_cases hx : x.2 = w <;> simp [hx, List.filter_cons]
    · rw [insertOrd, if_neg (by simpa [weightDescP] using hxy)]
      have hyx : x.2 < y.2 := lt_of_not_le hxy
      by_cases hy : y.2 = w
      · have hx : ¬ x.2 = w := by
          intro hx
          exact absurd (hx.trans hy.symm) (ne_of_lt hyx)
        simp [List.filter_cons, hy, hx, ih]
      · simp [List.filter_cons, hy, ih]

theorem filter_sortOrd_desc (l : List (String × Nat)) (w : Nat) :
    (sortOrd weightDescP l).filter (fun a => decide (a.2 = w)) =
      l.filter (fun a => decide (a.2 = w)) := by
  induction l with
  | nil => rfl
  | cons x xs ih =>
    have hstep : sortOrd weightDescP (x :: xs) = insertOrd weightDescP x (sortOrd weightDescP xs) := rfl
    rw [hstep, filter_insertOrd_desc, ih]
    by_cases hx : x.2 = w <;> simp [hx, List.filter_cons]

theorem lookupPC_nil (q : String × String) : lookupPC [] q = 0 := rfl

theorem lookupPC_cons (e : (String × String) × Nat) (m : List ((String × String) × Nat))
    (q : String × String) :
    lookupPC (e :: m) q = if e.1 = q then e.2 else lookupPC m q := by
  by_cases h : e.1 = q <;> simp [lookupPC, List.find?, h]

theorem lookupPC_bump_self_of_found (m : List ((String × String) × Nat)) (p : String × String)
    (h : m.any (fun e => decide (e.1 = p)) = true) :
    lookupPC (m.map (fun e => if e.1 = p then (e.1, e.2 + 1) else e)) p = lookupPC m p + 1 := by
  induction m with
  | nil => simp at h
  | cons e es ih =>
    by_cases he : e.1 = p
    · have he2 : (e.1, e.2 + 1).1 = p := he
      rw [List.map_cons, if_pos he, lookupPC_cons, lookupPC_cons, if_pos he2, if_pos he]
    · have h2 : es.any (fun e => decide (e.1 = p)) = true := by
        rcases List.any_eq_true.mp h with ⟨x, hx, hxp⟩
        rcases List.mem_cons.mp hx with rfl | hx2
        · exact absurd (of_decide_eq_true hxp) he
        · exact List.any_eq_true.mpr ⟨x, hx2, hxp⟩
      simp only [List.map_cons, if_neg he, lookupPC_cons, if_neg he, ih h2]

theorem lookupPC_bump_other (m : List ((String × String) × Nat)) (p q : String × String)
    (hqp : q ≠ p) :
    lookupPC (m.map (fun e => if e.1 = p then (e.1, e.2 + 1) else e)) q = lookupPC m q := by
  induction m with
  | nil => rfl
  | cons e es ih =>
    by_cases he : e.1 = q
    · have hep : ¬ e.1 = p := fun h => hqp (he.symm.trans h)
      simp only [List.map_cons, if_neg hep, lookupPC_cons, if_pos he]
    · by_cases hep : e.1 = p
      · have he2 : ¬ (e.1, e.2 + 1).1 = q := he
        simp only [List.map_cons, if_pos hep, lookupPC_cons, if_neg he2, if_neg he, ih]
      · simp only [List.map_cons, if_neg hep, lookupPC_cons, if_neg he, ih]

theorem lookupPC_append_fresh (m : List ((String × String) × Nat)) (p q : String × String)
    (h : m.any (fun e => decide (e.1 = p)) = false) :
    lookupPC (m ++ [(p, 1)]) q =
      if q = p then lookupPC m q + 1 else lookupPC m q := by
  induction m with
  | nil =>
    rw [List.nil_append, lookupPC_cons]
    by_cases hq : q = p
    · rw [if_pos hq.symm, if_pos hq, lookupPC_nil]
    · rw [if_neg (fun h2 : (p, 1).1 = q => hq h2.symm), if_neg hq]
  | cons e es ih =>
    have hstep := List.any_eq_false.mp h
    have hep : ¬ e.1 = p := by
      intro he
      exact hstep e (List.mem_cons_self e es) (decide_eq_true he)
    have h2 : es.any (fun e => decide (e.1 = p)) = false := by
      refine List.any_eq_false.mpr ?_
      intro x hx
      exact hstep x (List.mem_cons_of_mem e hx)
    by_cases he : e.1 = q
    · have hqp : ¬ q = p := fun hq => hep (he.trans hq)
      simp [lookupPC_cons, he, hqp]
    · simp only [List.cons_append, lookupPC_cons, if_neg he, ih h2]

theorem lookupPC_bump (m : List ((String × String) × Nat)) (p q : String × String) :
    lookupPC (bump m p) q = if q = p then lookupPC m q + 1 else lookupPC m q := by
  unfold bump
  by_cases h : m.any (fun e => decide (e.1 = p)) = true
  · rw [if_pos h]
    by_cases hq : q = p
    · subst hq
      rw [if_pos rfl, lookupPC_bump_self_of_found m q h]
    · rw [if_neg hq, lookupPC_bump_other m p q hq]
  · have hf : m.any (fun e => decide (e.1 = p)) = false := by
      revert h
      cases m.any (fun e => decide (e.1 = p)) <;> simp
    rw [if_neg h, lookupPC_append_fresh m p q hf]

theorem countEq_nil {α : Type} [DecidableEq α] (a : α) : countEq [] a = 0 := rfl

theorem countEq_cons {α : Type} [DecidableEq α] (x : α) (l : List α) (a : α) :
    countEq (x :: l) a = (if x = a then 1 else 0) + countEq l a := by
  by_cases h : x = a
  · simp [countEq, List.filter_cons, h]
    omega
  · simp [countEq, List.filter_cons, h]

theorem countEq_eq_zero_of_not_mem {α : Type} [DecidableEq α] (l : List α) (a : α)
    (h : a ∉ l) : countEq l a = 0 := by
  induction l with
  | nil => rfl
  | cons x xs ih =>
    have h1 : ¬ x = a := fun hx => h (List.mem_cons.mpr (Or.inl hx.symm))
    rw [countEq_cons, if_neg h1, ih (fun hx => h (List.mem_cons_of_mem x hx))]

theorem countEq_eq_one_of_nodup_mem {α : Type} [DecidableEq α] (l : List α) (a : α)
    (hn : l.Nodup) (h : a ∈ l) : countEq l a = 1 := by
  induction l with
  | nil => exact absurd h (List.not_mem_nil a)
  | cons x xs ih =>
    rw [List.nodup_cons] at hn
    rcases List.mem_cons.mp h with hax | hax
    · have h0 : a ∉ xs := fun hmem => hn.1 (hax ▸ hmem)
      rw [countEq_cons, if_pos hax.symm, countEq_eq_zero_of_not_mem xs a h0]
    · have h1 : ¬ x = a := fun hx => hn.1 (hx.symm ▸ hax)
      rw [countEq_cons, if_neg h1, ih hn.2 hax]

theorem lookupPC_foldl_bump (l : List (String × String)) (m : List ((String × String) × Nat))
    (q : String × String) :
    lookupPC (l.foldl bump m) q = lookupPC m q + countEq l q := by
  induction l generalizing m with
  | nil => simp [countEq_nil]
  | cons p ps ih =>
    rw [List.foldl_cons, ih, lookupPC_bump, countEq_cons]
    by_cases h : q = p
    · rw [if_pos h, if_pos h.symm]
      omega
    · rw [if_neg h, if_neg (fun hh => h hh.symm)]
      omega

theorem lookupPC_foldl_groups (groups : List (List Record))
    (m : List ((String × String) × Nat)) (q : String × String) :
    lookupPC (groups.foldl (fun m g => (pairsOf (groupSkills g)).foldl bump m) m) q =
      lookupPC m q + (groups.map (fun g => countEq (pairsOf (groupSkills g)) q)).sum := by
  induction groups generalizing m with
  | nil => simp
  | cons g gs ih =>
    rw [List.foldl_cons, ih, lookupPC_foldl_bump, List.map_cons, List.sum_cons]
    omega

theorem lookupPC_co (groups : List (List Record)) (q : String × String) :
    lookupPC (co_occurrence groups) q =
      (groups.map (fun g => countEq (pairsOf (groupSkills g)) q)).sum := by
  rw [co_occurrence, lookupPC_foldl_groups, lookupPC_nil, Nat.zero_add]

theorem charListLe_total : ∀ l1 l2 : List Char,
    charListLe l1 l2 = true ∨ charListLe l2 l1 = true
  | [], [] => Or.inl rfl
  | [], _ :: _ => Or.inl rfl
  | _ :: _, [] => Or.inr rfl
  | c :: cs, d :: ds => by
    rcases lt_trichotomy c d with h | h | h
    · left
      rw [charListLe, if_pos h]
    · subst h
      have hirr : ¬ c < c := lt_irrefl c
      rcases charListLe_total cs ds with h2 | h2
      · left
        rw [charListLe, if_neg hirr, if_neg hirr]
        exact h2
      · right
        rw [charListLe, if_neg hirr, if_neg hirr]
        exact h2
    · right
      rw [charListLe, if_pos h]

theorem charListLe_antisymm : ∀ l1 l2 : List Char,
    charListLe l1 l2 = true → charListLe l2 l1 = true → l1 = l2
  | [], [], _, _ => rfl
  | [], _ :: _, _, h2 => absurd h2 (by rw [charListLe]; simp)
  | _ :: _, [], h1, _ => absurd h1 (by rw [charListLe]; simp)
  | c :: cs, d :: ds, h1, h2 => by
    rcases lt_trichotomy c d with h | h | h
    · rw [charListLe, if_neg (asymm h), if_pos h] at h2
      exact absurd h2 (by simp)
    · subst h
      have hirr : ¬ c < c := lt_irrefl c
      rw [charListLe, if_neg hirr, if_neg hirr] at h1 h2
      rw [charListLe_antisymm cs ds h1 h2]
    · rw [charListLe, if_neg (asymm h), if_pos h] at h1
      exact absurd h1 (by simp)

theorem charListLt_iff : ∀ l1 l2 : List Char,
    charListLt l1 l2 = true ↔ (charListLe l1 l2 = true ∧ l1 ≠ l2)
  | [], [] => by simp [charListLt, charListLe]
  | [], _ :: _ => by simp [charListLt, charListLe]
  | _ :: _, [] => by simp [charListLt, charListLe]
  | c :: cs, d :: ds => by
    rcases lt_trichotomy c d with h | h | h
    · rw [charListLt, charListLe, if_pos h, if_pos h]
      refine iff_of_true rfl ⟨rfl, ?_⟩
      intro heq
      injection heq with hcd _
      exact (ne_of_lt h) hcd
    · subst h
      have hirr : ¬ c < c := lt_irrefl c
      rw [charListLt, charListLe, if_neg hirr, if_neg hirr, if_neg hirr, if_neg hirr,
        charListLt_iff cs ds]
      simp [List.cons.injEq]
    · rw [charListLt, charListLe, if_neg (asymm h), if_pos h, if_neg (asymm h), if_pos h]
      simp

theorem strLe_total (a b : String) : strLe a b = true ∨ strLe b a = true :=
  charListLe_total a.data b.data

theorem strLe_antisymm (a b : String) (h1 : strLe a b = true) (h2 : strLe b a = true) :
    a = b :=
  congrArg String.mk (charListLe_antisymm a.data b.data h1 h2)

theorem strLt_iff (a b : String) : strLt a b = true ↔ strLe a b = true ∧ a ≠ b := by
  rw [strLt, strLe, charListLt_iff]
  constructor
  · rintro ⟨h1, h2⟩
    exact ⟨h1, fun hab => h2 (hab ▸ rfl)⟩
  · rintro ⟨h1, h2⟩
    exact ⟨h1, fun hd => h2 (congrArg String.mk hd)⟩

theorem canonPair_comm (a b : String) : canonPair a b = canonPair b a := by
  unfold canonPair
  by_cases h1 : strLe a b = true <;> by_cases h2 : strLe b a = true
  · rw [if_pos h1, if_pos h2, strLe_antisymm a b h1 h2]
  · rw [if_pos h1, if_neg h2]
  · rw [if_neg h1, if_pos h2]
  · rcases strLe_total a b with h | h
    · exact absurd h h1
    · exact absurd h h2

theorem canonPair_cases (a b : String) : canonPair a b = (a, b) ∨ canonPair a b = (b, a) := by
  unfold canonPair
  by_cases h : strLe a b = true
  · exact Or.inl (if_pos h)
  · exact Or.inr (if_neg h)

theorem canonPair_strict (a b : String) (hab : a ≠ b) :
    strLt (canonPair a b).1 (canonPair a b).2 = true := by
  unfold canonPair
  by_cases h : strLe a b = true
  · rw [if_pos h]
    exact (strLt_iff a b).mpr ⟨h, hab⟩
  · rw [if_neg h]
    rcases strLe_total a b with h2 | h2
    · exact absurd h2 h
    · exact (strLt_iff b a).mpr ⟨h2, fun hba => hab hba.symm⟩

theorem canonPair_eq_iff (a b c d : String) :
    canonPair a b = canonPair c d ↔ (a = c ∧ b = d) ∨ (a = d ∧ b = c) := by
  unfold canonPair
  by_cases h1 : strLe a b = true <;> by_cases h2 : strLe c d = true
  · rw [if_pos h1, if_pos h2, Prod.ext_iff]
    constructor
    · exact Or.inl
    · rintro (⟨rfl, rfl⟩ | ⟨rfl, rfl⟩)
      · exact ⟨rfl, rfl⟩
      · exact ⟨strLe_antisymm a b h1 h2, strLe_antisymm b a h2 h1⟩
  · rw [if_pos h1, if_neg h2, Prod.ext_iff]
    constructor
    · rintro ⟨rfl, rfl⟩
      exact Or.inr ⟨rfl, rfl⟩
    · rintro (⟨rfl, rfl⟩ | ⟨rfl, rfl⟩)
      · exact absurd h1 h2
      · exact ⟨rfl, rfl⟩
  · rw [if_neg h1, if_pos h2, Prod.ext_iff]
    constructor
    · rintro ⟨rfl, rfl⟩
      exact Or.inr ⟨rfl, rfl⟩
    · rintro (⟨rfl, rfl⟩ | ⟨rfl, rfl⟩)
      · exact absurd h2 h1
      · exact ⟨rfl, rfl⟩
  · rw [if_neg h1, if_neg h2, Prod.ext_iff]
    constructor
    · rintro ⟨rfl, rfl⟩
      exact Or.inl ⟨rfl, rfl⟩
    · rintro (⟨rfl, rfl⟩ | ⟨rfl, rfl⟩)
      · exact ⟨rfl, rfl⟩
      · rcases strLe_total a b with h | h
        · exact absurd h h1
        · exact absurd h h2

theorem pairsOf_components (skills : List String) :
    ∀ p ∈ pairsOf skills, p.1 ∈ skills ∧ p.2 ∈ skills := by
  induction skills with
  | nil => simp [pairsOf]
  | cons x xs ih =>
    intro p hp
    rcases List.mem_append.mp hp with h | h
    · rcases List.mem_map.mp h with ⟨y, hy, rfl⟩
      rcases canonPair_cases x y with hc | hc <;> rw [hc]
      · exact ⟨List.mem_cons_self x xs, List.mem_cons_of_mem x hy⟩
      · exact ⟨List.mem_cons_of_mem x hy, List.mem_cons_self x xs⟩
    · have h2 := ih p h
      exact ⟨List.mem_cons_of_mem x h2.1, List.mem_cons_of_mem x h2.2⟩

theorem pairsOf_strict (skills : List String) (hn : skills.Nodup) :
    ∀ p ∈ pairsOf skills, strLt p.1 p.2 = true := by
  induction skills with
  | nil => simp [pairsOf]
  | cons x xs ih =>
    rw [List.nodup_cons] at hn
    intro p hp
    rcases List.mem_append.mp hp with h | h
    · rcases List.mem_map.mp h with ⟨y, hy, rfl⟩
      exact canonPair_strict x y (fun hxy => hn.1 (hxy ▸ hy))
    · exact ih hn.2 p h

theorem mem_pairsOf (skills : List String) (hn : skills.Nodup) (a b : String) :
    canonPair a b ∈ pairsOf skills ↔ a ∈ skills ∧ b ∈ skills ∧ a ≠ b := by
  induction skills with
  | nil => simp [pairsOf]
  | cons x xs ih =>
    rw [List.nodup_cons] at hn
    rw [pairsOf, List.mem_append]
    constructor
    · rintro (h | h)
      · rcases List.mem_map.mp h with ⟨y, hy, he⟩
        rcases (canonPair_eq_iff x y a b).mp he with ⟨h1, h2⟩ | ⟨h1, h2⟩
        · rw [← h1, ← h2]
          exact ⟨List.mem_cons_self x xs, List.mem_cons_of_mem x hy,
            fun hxy => hn.1 (hxy ▸ hy)⟩
        · rw [← h2, ← h1]
          exact ⟨List.mem_cons_of_mem x hy, List.mem_cons_self x xs,
            fun hyx => hn.1 (hyx ▸ hy)⟩
      · have h2 := (ih hn.2).mp h
        exact ⟨List.mem_cons_of_mem x h2.1, List.mem_cons_of_mem x h2.2.1, h2.2.2⟩
    · rintro ⟨ha, hb, hab⟩
      rcases List.mem_cons.mp ha with hax | hax
      · rcases List.mem_cons.mp hb with hbx | hbx
        · exact absurd (hax.trans hbx.symm) hab
        · refine Or.inl (List.mem_map.mpr ⟨b, hbx, ?_⟩)
          rw [hax]
      · rcases List.mem_cons.mp hb with hbx | hbx
        · refine Or.inl (List.mem_map.mpr ⟨a, hax, ?_⟩)
          rw [hbx, canonPair_comm]
        · exact Or.inr ((ih hn.2).mpr ⟨hax, hbx, hab⟩)

theorem pairsOf_nodup (skills : List String) (hn : skills.Nodup) :
    (pairsOf skills).Nodup := by
  induction skills with
  | nil => exact List.nodup_nil
  | cons x xs ih =>
    rw [List.nodup_cons] at hn
    rw [pairsOf]
    rw [List.nodup_append]
    refine ⟨?_, ih hn.2, ?_⟩
    · refine List.Nodup.map_on ?_ hn.2
      intro y hy z hz he
      rcases (canonPair_eq_iff x y x z).mp he with ⟨-, h⟩ | ⟨hxz, hyx⟩
      · exact h
      · exact absurd (hxz ▸ hz) hn.1
    · intro p hp hp2
      rcases List.mem_map.mp hp with ⟨y, hy, rfl⟩
      have h2 := pairsOf_components xs (canonPair x y) hp2
      rcases canonPair_cases x y with hc | hc
      · exact hn.1 (by rw [hc] at h2; exact h2.1)
      · exact hn.1 (by rw [hc] at h2; exact h2.2)

theorem count_pairsOf (skills : List String) (hn : skills.Nodup) (a b : String) :
    countEq (pairsOf skills) (canonPair a b) =
      if a ∈ skills ∧ b ∈ skills ∧ a ≠ b then 1 else 0 := by
  by_cases h : a ∈ skills ∧ b ∈ skills ∧ a ≠ b
  · rw [if_pos h]
    exact countEq_eq_one_of_nodup_mem _ _ (pairsOf_nodup skills hn)
      ((mem_pairsOf skills hn a b).mpr h)
  · rw [if_neg h]
    exact countEq_eq_zero_of_not_mem _ _
      (fun hm => h ((mem_pairsOf skills hn a b).mp hm))

theorem any_key_false (m : List ((String × String) × Nat)) (p : String × String)
    (hc : ¬ m.any (fun e => decide (e.1 = p)) = true) : p ∉ m.map (·.1) := by
  intro hp
  rcases List.mem_map.mp hp with ⟨e, he, hee⟩
  exact hc (List.any_eq_true.mpr ⟨e, he, decide_eq_true hee⟩)

theorem bump_keys (m : List ((String × String) × Nat)) (p : String × String) :
    (bump m p).map (·.1) =
      if m.any (fun e => decide (e.1 = p)) = true then m.map (·.1)
      else m.map (·.1) ++ [p] := by
  unfold bump
  by_cases hc : m.any (fun e => decide (e.1 = p)) = true
  · rw [if_pos hc, if_pos hc, List.map_map]
    apply List.map_congr_left
    intro e he
    by_cases hp : e.1 = p <;> simp [hp]
  · rw [if_neg hc, if_neg hc, List.map_append]
    rfl

theorem bump_keys_nodup (m : List ((String × String) × Nat)) (p : String × String)
    (h : (m.map (·.1)).Nodup) : ((bump m p).map (·.1)).Nodup := by
  rw [bump_keys]
  by_cases hc : m.any (fun e => decide (e.1 = p)) = true
  · rw [if_pos hc]
    exact h
  · rw [if_neg hc, List.nodup_append]
    refine ⟨h, List.nodup_singleton p, ?_⟩
    intro q hq hq2
    rw [List.mem_singleton.mp hq2] at hq
    exact any_key_false m p hc hq

theorem bump_keyProp (P : String × String → Prop) (m : List ((String × String) × Nat))
    (p : String × String) (hp : P p) (h : ∀ q ∈ m.map (·.1), P q) :
    ∀ q ∈ (bump m p).map (·.1), P q := by
  intro q hq
  rw [bump_keys] at hq
  by_cases hc : m.any (fun e => decide (e.1 = p)) = true
  · rw [if_pos hc] at hq
    exact h q hq
  · rw [if_neg hc] at hq
    rcases List.mem_append.mp hq with h2 | h2
    · exact h q h2
    · rw [List.mem_singleton.mp h2]
      exact hp

theorem bump_vals (m : List ((String × String) × Nat)) (p : String × String)
    (h : ∀ e ∈ m, 1 ≤ e.2) : ∀ e ∈ bump m p, 1 ≤ e.2 := by
  intro e he
  unfold bump at he
  by_cases hc : m.any (fun e => decide (e.1 = p)) = true
  · rw [if_pos hc] at he
    rcases List.mem_map.mp he with ⟨e2, he2, hee⟩
    have h2 := h e2 he2
    by_cases hp : e2.1 = p
    · rw [if_pos hp] at hee
      rw [← hee]
      exact Nat.le_succ_of_le h2
    · rw [if_neg hp] at hee
      rw [← hee]
      exact h2
  · rw [if_neg hc] at he
    rcases List.mem_append.mp he with he2 | he2
    · exact h e he2
    · rw [List.mem_singleton.mp he2]

theorem foldl_bump_vals (l : List (String × String)) (m : List ((String × String) × Nat))
    (h : ∀ e ∈ m, 1 ≤ e.2) : ∀ e ∈ l.foldl bump m, 1 ≤ e.2 := by
  induction l generalizing m with
  | nil => exact h
  | cons p ps ih => exact ih (bump m p) (bump_vals m p h)

theorem foldl_bump_keys_nodup (l : List (String × String))
    (m : List ((String × String) × Nat)) (h : (m.map (·.1)).Nodup) :
    ((l.foldl bump m).map (·.1)).Nodup := by
  induction l generalizing m with
  | nil => exact h
  | cons p ps ih => exact ih (bump m p) (bump_keys_nodup m p h)

theorem foldl_bump_keyProp (P : String × String → Prop) (l : List (String × String))
    (m : List ((String × String) × Nat)) (hl : ∀ p ∈ l, P p)
    (h : ∀ q ∈ m.map (·.1), P q) : ∀ q ∈ (l.foldl bump m).map (·.1), P q := by
  induction l generalizing m with
  | nil => exact h
  | cons p ps ih =>
    exact ih (bump m p) (fun p2 hp2 => hl p2 (List.mem_cons_of_mem p hp2))
      (bump_keyProp P m p (hl p (List.mem_cons_self p ps)) h)

theorem co_vals (groups : List (List Record)) : ∀ e ∈ co_occurrence groups, 1 ≤ e.2 := by
  rw [co_occurrence]
  have haux : ∀ (gs : List (List Record)) (m : List ((String × String) × Nat)),
      (∀ e ∈ m, 1 ≤ e.2) →
      ∀ e ∈ gs.foldl (fun m g => (pairsOf (groupSkills g)).foldl bump m) m, 1 ≤ e.2 := by
    intro gs
    induction gs with
    | nil => intro m h; exact h
    | cons g gs2 ih =>
      intro m h
      exact ih _ (foldl_bump_vals _ m h)
  exact haux groups [] (by intro e he; exact absurd he (List.not_mem_nil e))

theorem co_keys_nodup (groups : List (List Record)) :
    ((co_occurrence groups).map (·.1)).Nodup := by
  rw [co_occurrence]
  have haux : ∀ (gs : List (List Record)) (m : List ((String × String) × Nat)),
      (m.map (·.1)).Nodup →
      ((gs.foldl (fun m g => (pairsOf (groupSkills g)).foldl bump m) m).map (·.1)).Nodup := by
    intro gs
    induction gs with
    | nil => intro m h; exact h
    | cons g gs2 ih =>
      intro m h
      exact ih _ (foldl_bump_keys_nodup _ m h)
  exact haux groups [] List.nodup_nil

theorem co_keyProp (P : String × String → Prop) (groups : List (List Record))
    (hg : ∀ g ∈ groups, ∀ p ∈ pairsOf (groupSkills g), P p) :
    ∀ q ∈ (co_occurrence groups).map (·.1), P q := by
  rw [co_occurrence]
  have haux : ∀ (gs : List (List Record)),
      (∀ g ∈ gs, ∀ p ∈ pairsOf (groupSkills g), P p) →
      ∀ (m : List ((String × String) × Nat)), (∀ q ∈ m.map (·.1), P q) →
      ∀ q ∈ ((gs.foldl (fun m g => (pairsOf (groupSkills g)).foldl bump m) m).map (·.1)), P q := by
    intro gs
    induction gs with
    | nil => intro _ m h; exact h
    | cons g gs2 ih =>
      intro hgs m h
      exact ih (fun g2 hg2 => hgs g2 (List.mem_cons_of_mem g hg2)) _
        (foldl_bump_keyProp P _ m (hgs g (List.mem_cons_self g gs2)) h)
  exact haux groups hg [] (by intro q hq; exact absurd hq (List.not_mem_nil q))

theorem groupSkills_nodup (g : List Record) : (groupSkills g).Nodup :=
  nodup_uniqueFirst _

theorem co_keys_strict (rows : List Record) :
    ∀ q ∈ (co_occurrence (groupedRows rows)).map (·.1), strLt q.1 q.2 = true :=
  co_keyProp _ _ (fun g _ => pairsOf_strict (groupSkills g) (groupSkills_nodup g))

theorem mem_groupSkills (rows : List Record) (k a : String) :
    a ∈ groupSkills (groupOf rows k) ↔
      ∃ r ∈ rows, r.element_id = k ∧ r.element_name = a := by
  rw [groupSkills, mem_uniqueFirst]
  constructor
  · intro h
    rcases List.mem_map.mp h with ⟨r, hr, hrn⟩
    have h2 := List.mem_filter.mp hr
    exact ⟨r, h2.1, of_decide_eq_true h2.2, hrn⟩
  · rintro ⟨r, hr, hrid, hrn⟩
    exact List.mem_map.mpr ⟨r, List.mem_filter.mpr ⟨hr, decide_eq_true hrid⟩, hrn⟩

theorem co_keys_endpoints (rows : List Record) :
    ∀ q ∈ (co_occurrence (groupedRows rows)).map (·.1),
      q.1 ∈ rows.map (·.element_name) ∧ q.2 ∈ rows.map (·.element_name) := by
  apply co_keyProp
  intro g hg p hp
  rcases List.mem_map.mp hg with ⟨k, hk, hgk⟩
  rw [← hgk] at hp
  have hc := pairsOf_components (groupSkills (groupOf rows k)) p hp
  constructor
  · rcases (mem_groupSkills rows k p.1).mp hc.1 with ⟨r, hr, _, hrn⟩
    exact List.mem_map.mpr ⟨r, hr, hrn⟩
  · rcases (mem_groupSkills rows k p.2).mp hc.2 with ⟨r, hr, _, hrn⟩
    exact List.mem_map.mpr ⟨r, hr, hrn⟩

theorem map_fst_pairup (l : List String) (f : String → Option String) :
    (l.map (fun s => (s, f s))).map (·.1) = l := by
  induction l with
  | nil => rfl
  | cons x xs ih => simp [ih]

theorem foldl_add_node (l : List String) (f : String → Option String) :
    ∀ g : SkillGraph, (∀ s ∈ l, s ∉ g.nodes.map (·.1)) → l.Nodup →
      (l.foldl (fun g s => add_node g s (f s)) g).nodes =
        g.nodes ++ l.map (fun s => (s, f s)) ∧
      (l.foldl (fun g s => add_node g s (f s)) g).edges = g.edges := by
  induction l with
  | nil =>
    intro g _ _
    simp
  | cons s ss ih =>
    intro g hd hn
    rw [List.nodup_cons] at hn
    rw [List.foldl_cons]
    have hs : s ∉ g.nodes.map (·.1) := hd s (List.mem_cons_self s ss)
    have hstep : add_node g s (f s) = { g with nodes := g.nodes ++ [(s, f s)] } := by
      unfold add_node
      rw [if_neg hs]
    rw [hstep]
    have hd2 : ∀ t ∈ ss, t ∉ (g.nodes ++ [(s, f s)]).map (·.1) := by
      intro t ht hmem
      rw [List.map_append, List.mem_append] at hmem
      rcases hmem with h2 | h2
      · exact hd t (List.mem_cons_of_mem s ht) h2
      · have h3 : t = s := by simpa using h2
        exact hn.1 (h3 ▸ ht)
    have hih := ih { g with nodes := g.nodes ++ [(s, f s)] } hd2 hn.2
    refine ⟨?_, hih.2⟩
    rw [hih.1]
    show g.nodes ++ [(s, f s)] ++ ss.map (fun t => (t, f t)) =
      g.nodes ++ (s, f s) :: ss.map (fun t => (t, f t))
    rw [List.append_assoc]
    rfl

theorem foldl_add_edge (co : List ((String × String) × Nat)) :
    ∀ g : SkillGraph,
      ((g.edges.map (·.1)) ++ co.map (·.1)).Nodup →
      (∀ p ∈ g.edges.map (·.1) ++ co.map (·.1), strLt p.1 p.2 = true) →
      (∀ p ∈ co.map (·.1), p.1 ∈ g.nodes.map (·.1) ∧ p.2 ∈ g.nodes.map (·.1)) →
      (co.foldl (fun g e => add_edge g e.1.1 e.1.2 e.2) g).nodes = g.nodes ∧
      (co.foldl (fun g e => add_edge g e.1.1 e.1.2 e.2) g).edges = g.edges ++ co := by
  induction co with
  | nil =>
    intro g _ _ _
    simp
  | cons e es ih =>
    intro g hnd hst hmem
    obtain ⟨⟨a, b⟩, w⟩ := e
    rw [List.foldl_cons]
    have hmab : ((a, b) : String × String) ∈ (((a, b), w) :: es).map (·.1) :=
      List.mem_map.mpr ⟨((a, b), w), List.mem_cons_self _ _, rfl⟩
    have hmemA : a ∈ g.nodes.map (·.1) := (hmem (a, b) hmab).1
    have hmemB : b ∈ g.nodes.map (·.1) := (hmem (a, b) hmab).2
    have hanyf : ¬ g.edges.any (fun e2 => decide (e2.1 = (a, b) ∨ e2.1 = (b, a))) = true := by
      intro hany
      rcases List.any_eq_true.mp hany with ⟨e2, he2, hp⟩
      rcases of_decide_eq_true hp with h1 | h1
      · have hk1 : ((a, b) : String × String) ∈ g.edges.map (·.1) :=
          List.mem_map.mpr ⟨e2, he2, h1⟩
        exact (List.nodup_append.mp hnd).2.2 hk1 hmab
      · have hk1 : ((b, a) : String × String) ∈ g.edges.map (·.1) :=
          List.mem_map.mpr ⟨e2, he2, h1⟩
        have hs1 : strLt b a = true := hst (b, a) (List.mem_append_left _ hk1)
        have hs2 : strLt a b = true := hst (a, b) (List.mem_append_right _ hmab)
        rcases (strLt_iff b a).mp hs1 with ⟨hle1, -⟩
        rcases (strLt_iff a b).mp hs2 with ⟨hle2, hne2⟩
        exact hne2 (strLe_antisymm a b hle2 hle1)
    have hstep : add_edge g a b w = { g with edges := g.edges ++ [((a, b), w)] } := by
      simp only [add_edge]
      rw [if_pos hmemA, if_pos hmemB, if_neg hanyf]
    rw [hstep]
    have hkeys : ({ g with edges := g.edges ++ [((a, b), w)] } : SkillGraph).edges.map (·.1) ++
        es.map (·.1) = g.edges.map (·.1) ++ (((a, b), w) :: es).map (·.1) := by
      show (g.edges ++ [((a, b), w)]).map (·.1) ++ es.map (·.1) = _
      rw [List.map_append, List.append_assoc]
      rfl
    have hih := ih { g with edges := g.edges ++ [((a, b), w)] }
      (by rw [hkeys]; exact hnd)
      (by rw [hkeys]; exact hst)
      (by
        intro p hp
        rcases List.mem_map.mp hp with ⟨e2, he2, hee⟩
        exact hmem p (List.mem_map.mpr ⟨e2, List.mem_cons_of_mem _ he2, hee⟩))
    refine ⟨hih.1, ?_⟩
    rw [hih.2]
    show g.edges ++ [((a, b), w)] ++ es = g.edges ++ ((a, b), w) :: es
    rw [List.append_assoc]
    rfl

theorem create_nodes_edges (hasRegion : Bool) (rows : List Record) :
    (create_weighted_skill_graph hasRegion rows).nodes =
      (uniqueFirst (rows.map (·.element_name))).map
        (fun s => (s, node_region hasRegion rows s)) ∧
    (create_weighted_skill_graph hasRegion rows).edges =
      co_occurrence (groupedRows rows) := by
  have hdef : create_weighted_skill_graph hasRegion rows =
      (co_occurrence (groupedRows rows)).foldl (fun g e => add_edge g e.1.1 e.1.2 e.2)
        ((uniqueFirst (rows.map (·.element_name))).foldl
          (fun g skill => add_node g skill (node_region hasRegion rows skill)) ⟨[], []⟩) := rfl
  rw [hdef]
  have h1 := foldl_add_node (uniqueFirst (rows.map (·.element_name)))
    (node_region hasRegion rows) ⟨[], []⟩
    (by intro s _ h; exact absurd h (List.not_mem_nil s))
    (nodup_uniqueFirst _)
  have hg1nodes : ((uniqueFirst (rows.map (·.element_name))).foldl
      (fun g skill => add_node g skill (node_region hasRegion rows skill))
      (⟨[], []⟩ : SkillGraph)).nodes =
      (uniqueFirst (rows.map (·.element_name))).map
        (fun s => (s, node_region hasRegion rows s)) := by
    rw [h1.1]
    rfl
  have hg1edges : ((uniqueFirst (rows.map (·.element_name))).foldl
      (fun g skill => add_node g skill (node_region hasRegion rows skill))
      (⟨[], []⟩ : SkillGraph)).edges = [] := h1.2
  have h2 := foldl_add_edge (co_occurrence (groupedRows rows))
    ((uniqueFirst (rows.map (·.element_name))).foldl
      (fun g skill => add_node g skill (node_region hasRegion rows skill)) ⟨[], []⟩)
    (by rw [hg1edges]; exact co_keys_nodup (groupedRows rows))
    (by
      rw [hg1edges]
      intro p hp
      exact co_keys_strict rows p (by simpa using hp))
    (by
      intro p hp
      rw [hg1nodes, map_fst_pairup]
      have h3 := co_keys_endpoints rows p hp
      exact ⟨(mem_uniqueFirst _ _).mpr h3.1, (mem_uniqueFirst _ _).mpr h3.2⟩)
  refine ⟨?_, ?_⟩
  · rw [h2.1, hg1nodes]
  · rw [h2.2, hg1edges]
    rfl

theorem sum_map_boolIte {α : Type} (l : List α) (p : α → Bool) :
    (l.map (fun x => if p x then 1 else 0)).sum = (l.filter p).length := by
  induction l with
  | nil => rfl
  | cons x xs ih =>
    rw [List.map_cons, List.sum_cons, List.filter_cons]
    by_cases h : p x
    · rw [if_pos h, if_pos h, List.length_cons, ih]
      omega
    · rw [if_neg h, if_neg h, ih]
      omega

theorem lookupPC_eq_of_mem (m : List ((String × String) × Nat))
    (e : (String × String) × Nat) (hm : e ∈ m) (hnd : (m.map (·.1)).Nodup) :
    lookupPC m e.1 = e.2 := by
  induction m with
  | nil => exact absurd hm (List.not_mem_nil e)
  | cons e2 m2 ih =>
    rw [List.map_cons, List.nodup_cons] at hnd
    rcases List.mem_cons.mp hm with h | h
    · rw [h, lookupPC_cons, if_pos rfl]
    · have hne : ¬ e2.1 = e.1 := by
        intro hh
        exact hnd.1 (hh ▸ List.mem_map.mpr ⟨e, h, rfl⟩)
      rw [lookupPC_cons, if_neg hne, ih h hnd.2]

theorem lookupPC_co_counts (rows : List Record) (a b : String) (hab : a ≠ b) :
    lookupPC (co_occurrence (groupedRows rows)) (canonPair a b) =
      distinctGroupsContainingBoth rows a b := by
  rw [lookupPC_co, groupedRows, List.map_map]
  have hmapeq : (groupKeys rows).map
      ((fun g => countEq (pairsOf (groupSkills g)) (canonPair a b)) ∘ groupOf rows) =
      (groupKeys rows).map (fun k =>
        if (rows.any (fun r => decide (r.element_id = k ∧ r.element_name = a)) &&
            rows.any (fun r => decide (r.element_id = k ∧ r.element_name = b))) = true
        then 1 else 0) := by
    apply List.map_congr_left
    intro k _
    show countEq (pairsOf (groupSkills (groupOf rows k))) (canonPair a b) = _
    rw [count_pairsOf _ (groupSkills_nodup _) a b]
    refine if_congr ?_ rfl rfl
    constructor
    · rintro ⟨h1, h2, -⟩
      rw [Bool.and_eq_true]
      constructor
      · rcases (mem_groupSkills rows k a).mp h1 with ⟨r, hr, hrid, hrn⟩
        exact List.any_eq_true.mpr ⟨r, hr, decide_eq_true ⟨hrid, hrn⟩⟩
      · rcases (mem_groupSkills rows k b).mp h2 with ⟨r, hr, hrid, hrn⟩
        exact List.any_eq_true.mpr ⟨r, hr, decide_eq_true ⟨hrid, hrn⟩⟩
    · intro h
      rw [Bool.and_eq_true] at h
      rcases List.any_eq_true.mp h.1 with ⟨r, hr, hra⟩
      have hra2 := of_decide_eq_true hra
      rcases List.any_eq_true.mp h.2 with ⟨r2, hr2, hrb⟩
      have hrb2 := of_decide_eq_true hrb
      exact ⟨(mem_groupSkills rows k a).mpr ⟨r, hr, hra2.1, hra2.2⟩,
        (mem_groupSkills rows k b).mpr ⟨r2, hr2, hrb2.1, hrb2.2⟩, hab⟩
  rw [hmapeq, sum_map_boolIte, distinctGroupsContainingBoth, groupKeys]
  exact ((sortOrd_perm _ _).filter _).length_eq

theorem mem_keys_iff_lookupPC_ne (m : List ((String × String) × Nat))
    (hv : ∀ e ∈ m, 1 ≤ e.2) (q : String × String) :
    q ∈ m.map (·.1) ↔ lookupPC m q ≠ 0 := by
  induction m with
  | nil =>
    rw [lookupPC_nil]
    simp
  | cons e es ih =>
    rw [List.map_cons, lookupPC_cons, List.mem_cons]
    by_cases h : e.1 = q
    · have h1 := hv e (List.mem_cons_self e es)
      rw [if_pos h]
      constructor
      · intro _
        omega
      · intro _
        exact Or.inl h.symm
    · rw [if_neg h]
      constructor
      · rintro (h2 | h2)
        · exact absurd h2.symm h
        · exact (ih (fun e2 he2 => hv e2 (List.mem_cons_of_mem e he2))).mp h2
      · intro h2
        exact Or.inr ((ih (fun e2 he2 => hv e2 (List.mem_cons_of_mem e he2))).mpr h2)

theorem find?_true {α : Type} (p : α → Bool) :
    ∀ (l : List α) (a : α), l.find? p = some a → p a = true := by
  intro l
  induction l with
  | nil =>
    intro a h
    exact absurd h (by simp)
  | cons x xs ih =>
    intro a h
    by_cases hx : p x
    · rw [List.find?_cons_of_pos _ hx] at h
      rw [← Option.some.inj h]
      exact hx
    · rw [List.find?_cons_of_neg _ hx] at h
      exact ih a h

/-- C1: for every input and every pair of skills forming an edge of the
graph built by `create_weighted_skill_graph`, the edge weight equals the
number of distinct `element_id` groups in which both skills appear,
regardless of duplicate rows inside a group. -/
theorem c1_edge_weight_counts_distinct_groups (hasRegion : Bool) (rows : List Record)
    (a b : String) (w : Nat)
    (h : edgeWeight (create_weighted_skill_graph hasRegion rows) a b = some w) :
    w = distinctGroupsContainingBoth rows a b := by
  rw [edgeWeight, (create_nodes_edges hasRegion rows).2] at h
  rcases Option.map_eq_some'.mp h with ⟨e, hfind, hw⟩
  have hmem := List.mem_of_find?_eq_some hfind
  have hor := of_decide_eq_true (find?_true _ _ e hfind)
  have hstrict := co_keys_strict rows e.1 (List.mem_map.mpr ⟨e, hmem, rfl⟩)
  have hab : a ≠ b := by
    rcases hor with h1 | h1
    · rw [h1] at hstrict
      exact ((strLt_iff a b).mp hstrict).2
    · rw [h1] at hstrict
      exact fun hh => ((strLt_iff b a).mp hstrict).2 hh.symm
  have hcanon : e.1 = canonPair a b := by
    rcases hor with h1 | h1
    · rw [h1] at hstrict ⊢
      rcases (strLt_iff a b).mp hstrict with ⟨hle, -⟩
      unfold canonPair
      rw [if_pos hle]
    · rw [h1] at hstrict ⊢
      rcases (strLt_iff b a).mp hstrict with ⟨hle, hne⟩
      have hnot : ¬ strLe a b = true := fun hle2 => hne (strLe_antisymm b a hle hle2)
      unfold canonPair
      rw [if_neg hnot]
  have hl := lookupPC_eq_of_mem _ e hmem (co_keys_nodup _)
  rw [← hw, ← hl, hcanon, lookupPC_co_counts rows a b hab]

/-- Witness for C1 on the spec's running example: the A-B edge has
weight 2, and A and B share exactly the two groups 1 and 2. -/
theorem c1_witness : 2 = distinctGroupsContainingBoth rowsExample "A" "B" :=
  c1_edge_weight_counts_distinct_groups false rowsExample "A" "B" 2 (by decide)

/-- C7: permuting the order in which job-type groups are fed to the
aggregation leaves the co-occurrence mapping unchanged: every pair keeps
its count, and the key set is the same. -/
theorem c7_group_order_irrelevant (groups1 groups2 : List (List Record))
    (h : groups1.Perm groups2) :
    (∀ p, lookupPC (co_occurrence groups1) p = lookupPC (co_occurrence groups2) p) ∧
    (∀ p, p ∈ (co_occurrence groups1).map (·.1) ↔
      p ∈ (co_occurrence groups2).map (·.1)) := by
  have hlook : ∀ p, lookupPC (co_occurrence groups1) p = lookupPC (co_occurrence groups2) p := by
    intro p
    rw [lookupPC_co, lookupPC_co]
    exact ((h.map (fun g => countEq (pairsOf (groupSkills g)) p)).sum_eq)
  refine ⟨hlook, ?_⟩
  intro p
  rw [mem_keys_iff_lookupPC_ne _ (co_vals groups1) p,
    mem_keys_iff_lookupPC_ne _ (co_vals groups2) p, hlook p]

/-- Witness for C7: swapping two concrete groups leaves the count of the
pair (S, T) unchanged. -/
theorem c7_witness :
    lookupPC (co_occurrence groupsFwd) ("S", "T") =
      lookupPC (co_occurrence groupsRev) ("S", "T") :=
  (c7_group_order_irrelevant groupsFwd groupsRev (List.Perm.swap _ _ _)).1 ("S", "T")

/-- C8: the built graph has no self-loop: every edge key joins two
distinct skills. -/
theorem c8_no_self_loops (hasRegion : Bool) (rows : List Record) :
    (create_weighted_skill_graph hasRegion rows).edges.all
      (fun e => decide (e.1.1 ≠ e.1.2)) = true := by
  rw [(create_nodes_edges hasRegion rows).2]
  rw [List.all_eq_true]
  intro e he
  exact decide_eq_true
    ((strLt_iff e.1.1 e.1.2).mp (co_keys_strict rows e.1 (List.mem_map.mpr ⟨e, he, rfl⟩))).2

/-- C9: an edge (a, b) of weight w makes b appear with weight w among
a's sorted neighbours and a with weight w among b's sorted neighbours. -/
theorem c9_symmetric_neighbors (g : SkillGraph) (a b : String) (w : Nat)
    (h : ((a, b), w) ∈ g.edges) :
    (b, w) ∈ sorted_neighbors_of g a ∧ (a, w) ∈ sorted_neighbors_of g b := by
  constructor
  · rw [sorted_neighbors_of]
    rw [(sortOrd_perm weightDescP (adj g a)).mem_iff]
    refine List.mem_filterMap.mpr ⟨((a, b), w), h, ?_⟩
    rw [if_pos rfl]
  · rw [sorted_neighbors_of]
    rw [(sortOrd_perm weightDescP (adj g b)).mem_iff]
    refine List.mem_filterMap.mpr ⟨((a, b), w), h, ?_⟩
    by_cases hab : a = b
    · rw [hab, if_pos rfl]
    · rw [if_neg hab, if_pos rfl]

/-- Witness for C9: the example's A-B edge of weight 2 appears in both
directions among the sorted neighbours. -/
theorem c9_witness :
    ("B", 2) ∈ sorted_neighbors_of graphExample "A" ∧
    ("A", 2) ∈ sorted_neighbors_of graphExample "B" :=
  c9_symmetric_neighbors graphExample "A" "B" 2 (by decide)

/-- C10: the node set of the built graph is exactly the set of distinct
`element_name` values of the input, and both endpoints of every edge are
members of that node set — adding edges never introduces a node. -/
theorem c10_node_set_exact (hasRegion : Bool) (rows : List Record) :
    (create_weighted_skill_graph hasRegion rows).nodes.map (·.1) =
      uniqueFirst (rows.map (·.element_name)) ∧
    (∀ s : String, s ∈ (create_weighted_skill_graph hasRegion rows).nodes.map (·.1) ↔
      s ∈ rows.map (·.element_name)) ∧
    (create_weighted_skill_graph hasRegion rows).edges.all (fun e =>
      decide (e.1.1 ∈ (create_weighted_skill_graph hasRegion rows).nodes.map (·.1)) &&
      decide (e.1.2 ∈ (create_weighted_skill_graph hasRegion rows).nodes.map (·.1))) = true := by
  have hnodes : (create_weighted_skill_graph hasRegion rows).nodes.map (·.1) =
      uniqueFirst (rows.map (·.element_name)) := by
    rw [(create_nodes_edges hasRegion rows).1, map_fst_pairup]
  refine ⟨hnodes, ?_, ?_⟩
  · intro s
    rw [hnodes, mem_uniqueFirst]
  · rw [List.all_eq_true]
    intro e he
    rw [(create_nodes_edges hasRegion rows).2] at he
    have h2 := co_keys_endpoints rows e.1 (List.mem_map.mpr ⟨e, he, rfl⟩)
    rw [Bool.and_eq_true]
    constructor
    · exact decide_eq_true (by rw [hnodes]; exact (mem_uniqueFirst _ _).mpr h2.1)
    · exact decide_eq_true (by rw [hnodes]; exact (mem_uniqueFirst _ _).mpr h2.2)

/-- Counterexample to C2 as stated: for the tie input, S's two
equal-weight neighbours come out as B before A — edge-insertion order,
not ascending lexicographic order. -/
theorem c2_counterexample :
    orderedDescLexTiesB (top_neighbors_of graphTie "S") = false := by
  decide

/-- C2 amended: the neighbour list is sorted by non-increasing weight,
and neighbours of equal weight keep their adjacency (edge-insertion)
order — the sort is stable, with no lexicographic tie-break. -/
theorem c2_amended_desc_stable (g : SkillGraph) (s : String) :
    weightsDescB (sorted_neighbors_of g s) = true ∧ stableTiesB g s = true := by
  constructor
  · exact weightsDescB_of_pairwise _ (sortOrd_desc_pairwise (adj g s))
  · rw [stableTiesB, List.all_eq_true]
    intro w _
    exact decide_eq_true (filter_sortOrd_desc (adj g s) w)

/-- Counterexample to C3 as stated: on an unknown skill the code prints
the not-found message (the claim says no message is printed and a typed
error is raised instead). -/
theorem c3_counterexample :
    decide (UIOutput.notFoundMsg ∉ user_interface graphTie "X") = false := by
  decide

/-- C3 amended: on a skill id that is not a node, `user_interface`
prints exactly the not-found message and returns normally: no partial
results and no raised error value. -/
theorem c3_amended_prints_and_returns (g : SkillGraph) (s : String)
    (h : s ∉ g.nodes.map (·.1)) :
    user_interface g s = [UIOutput.notFoundMsg] := by
  rw [user_interface, if_neg h]

/-- Witness for the amended C3 at a concrete unknown skill id. -/
theorem c3_witness :
    user_interface graphTie "X" = [UIOutput.notFoundMsg] :=
  c3_amended_prints_and_returns graphTie "X" (by decide)

/-- C4 (code bug): whenever a Region column is present,
`get_regional_insights` fails with a KeyError naming the non-existent
`JobType` column — the job-type column is actually `Element ID` — so it
never returns the per-region counts the spec describes. -/
theorem c4_regional_insights_keyerror (rows : List Record) :
    get_regional_insights true rows = Except.error "JobType" := rfl

/-- Counterexample to C5 as stated: skill A first appears with a missing
region and later with region R; the node attribute is the missing first
value, not the first non-empty value R. -/
theorem c5_counterexample :
    decide (regionAttrOf (create_weighted_skill_graph true rowsRegion) "A" =
      firstNonEmptyRegionSpec rowsRegion "A") = false := by
  decide

theorem find?_eq_head_filter {α : Type} (p : α → Bool) (l : List α) :
    l.find? p = (l.filter p).head? := by
  induction l with
  | nil => rfl
  | cons x xs ih =>
    by_cases h : p x
    · rw [List.find?_cons_of_pos _ h, List.filter_cons, if_pos h]
      rfl
    · rw [List.find?_cons_of_neg _ h, List.filter_cons, if_neg h, ih]

theorem find?_map_pairup (l : List String) (f : String → Option String) (s : String) :
    (l.map (fun t => (t, f t))).find? (fun n => decide (n.1 = s)) =
      (l.find? (fun t => decide (t = s))).map (fun t => (t, f t)) := by
  induction l with
  | nil => rfl
  | cons x xs ih =>
    by_cases h : x = s
    · simp [List.find?_cons, h]
    · simp [List.find?_cons, h, ih]

theorem find?_self_of_mem (l : List String) (s : String) (h : s ∈ l) :
    l.find? (fun t => decide (t = s)) = some s := by
  induction l with
  | nil => exact absurd h (List.not_mem_nil s)
  | cons x xs ih =>
    by_cases hx : x = s
    · simp [List.find?_cons, hx]
    · rcases List.mem_cons.mp h with h2 | h2
      · exact absurd h2.symm hx
      · simp [List.find?_cons, hx, ih h2]

/-- C5 amended: the region attribute of a skill's node is the region
value of the FIRST record mentioning that skill in input order — a
missing first value is kept even when a later record carries a region —
and a skill with no region values resolves to no region without
error. -/
theorem c5_amended_first_record_region (hasRegion : Bool) (rows : List Record) (s : String)
    (h : s ∈ rows.map (·.element_name)) :
    regionAttrOf (create_weighted_skill_graph hasRegion rows) s =
      if hasRegion then
        (rows.find? (fun r => decide (r.element_name = s))).bind (fun r => r.region)
      else none := by
  rw [regionAttrOf, (create_nodes_edges hasRegion rows).1, find?_map_pairup,
    find?_self_of_mem _ s ((mem_uniqueFirst _ _).mpr h)]
  show node_region hasRegion rows s = _
  rw [node_region]
  by_cases hr : hasRegion = true
  · rw [if_pos hr, if_pos hr, find?_eq_head_filter]
    cases hfl : rows.filter (fun r => decide (r.element_name = s)) with
    | nil =>
      exfalso
      rcases List.mem_map.mp h with ⟨r, hr2, hrn⟩
      have hmem : r ∈ rows.filter (fun r => decide (r.element_name = s)) :=
        List.mem_filter.mpr ⟨hr2, decide_eq_true hrn⟩
      rw [hfl] at hmem
      exact absurd hmem (List.not_mem_nil r)
    | cons r0 rest =>
      rw [List.map_cons, uniqueFirst_cons]
      rfl
  · rw [if_neg hr, if_neg hr]

/-- Witness for the amended C5: A's node keeps the missing region of its
first record. -/
theorem c5_witness :
    regionAttrOf (create_weighted_skill_graph true rowsRegion) "A" =
      if true then
        (rowsRegion.find? (fun r => decide (r.element_name = "A"))).bind (fun r => r.region)
      else none :=
  c5_amended_first_record_region true rowsRegion "A" (by decide)

/-- C6: the top-neighbours query returns min(degree, 10) entries —
exactly the degree when it is below ten, and the empty list exactly when
the degree is zero. -/
theorem c6_topk_boundary (g : SkillGraph) (s : String)
    (h : s ∈ g.nodes.map (·.1)) :
    (top_neighbors_of g s).length = min (adj g s).length 10 ∧
    ((adj g s).length = 0 ↔ top_neighbors_of g s = []) := by
  have hlen : (sorted_neighbors_of g s).length = (adj g s).length :=
    (sortOrd_perm weightDescP (adj g s)).length_eq
  have h1 : (top_neighbors_of g s).length = min (adj g s).length 10 := by
    rw [top_neighbors_of, List.length_take, hlen, Nat.min_comm]
  refine ⟨h1, ?_, ?_⟩
  · intro h0
    refine List.length_eq_zero.mp ?_
    rw [h1, h0]
    simp
  · intro h0
    have h2 : min (adj g s).length 10 = 0 := by
      rw [← h1, h0]
      rfl
    omega

/-- Witness for C6 at the example graph: A has degree 2 and gets exactly
its two neighbours back. -/
theorem c6_witness :
    (top_neighbors_of graphExample "A").length = min (adj graphExample "A").length 10 ∧
    ((adj graphExample "A").length = 0 ↔ top_neighbors_of graphExample "A" = []) :=
  c6_topk_boundary graphExample "A" (by decide)

end SkillNet
